import Mathlib

/-!
Verification of the LIHEAP data-engineering pipeline (six batch stages).

This file gives a shallow embedding of the pipeline operations that the
checked properties are about, translated from the Python source under
notebooks/pipeline, and proves or refutes each property.

Modelling conventions:
  - a spreadsheet cell is `Option String`: `none` is a missing value (NaN),
    `some s` is the Python text rendering of the cell;
  - `astype(str)` renders a missing value as the string nan, which is how
    pandas behaves and which several properties secretly depend on;
  - monetary amounts and weights are rational numbers; dates are pairs
    (year, month) after parsing, `none` when the parse failed;
  - pandas multi-column `sort_values` is a stable lexicographic sort, which
    is embedded as an insertion sort over rows tagged with their original
    index, the index acting as the final tie-break key;
  - `drop_duplicates(keep=first)` is `keepFirst`, retaining the first row
    of each key group in list order.
-/

namespace Liheap

/-! ## Basic text utilities mirroring the Python string operations -/

/-- Python str.strip: remove whitespace from both ends. Implemented over
the character list so that proofs can evaluate it by reduction. -/
def strip (s : String) : String :=
  String.mk (((s.data.dropWhile Char.isWhitespace).reverse.dropWhile
    Char.isWhitespace).reverse)

/-- Python str.upper (ASCII letters are all that occur in the data). -/
def upper (s : String) : String := String.mk (s.data.map Char.toUpper)

/-- Python str.zfill for the non-negative strings this pipeline feeds it:
left-pad with zeros up to width `n`. -/
def zfill (n : ℕ) (s : String) : String :=
  if s.length ≥ n then s else String.mk (List.replicate (n - s.length) '0') ++ s

/-- pandas astype(str) on a cell: a missing value renders as the text nan. -/
def astypeStr (v : Option String) : String :=
  match v with
  | none => "nan"
  | some s => s

/-! ## ZIP cleaning (01_combine_liheap_data.py, clean_zip) -/

/-- The regex replace of a trailing literal dot-zero, anchored at the end,
as in str.replace applied to the pattern backslash-dot 0 dollar. -/
def stripDotZero (s : String) : String :=
  if s.data.length ≥ 2 ∧ s.data.drop (s.data.length - 2) = ['.', '0']
  then String.mk (s.data.take (s.data.length - 2)) else s

/-- Whether positions i .. i+4 of the character list are all digits
(the condition for the 5-digit regex to match at offset i). -/
def run5At (l : List Char) (i : ℕ) : Bool :=
  ((l.drop i).take 5).length = 5 && ((l.drop i).take 5).all Char.isDigit

/-- re.search semantics of the 5-digit extraction: scan offsets left to
right, return the first window of 5 consecutive digits. -/
def findRun5 : List Char → Option (List Char)
  | [] => none
  | c :: cs =>
      let ys := (c :: cs).take 5
      if ys.length = 5 && ys.all Char.isDigit then some ys else findRun5 cs

/-- str.extract of the 5-digit pattern on one value. -/
def extract5 (s : String) : Option String :=
  (findRun5 s.data).map String.mk

/-- clean_zip on one value: cast to text is implicit (the argument is the
text rendering), strip a trailing dot-zero, extract 5 digits, zfill to 5.
A value with no 5-digit window becomes missing. -/
def clean_zip (s : String) : Option String :=
  (extract5 (stripDotZero s)).map (zfill 5)

/-- The window of 5 characters starting at offset i of a string. -/
def winAt (s : String) (i : ℕ) : String :=
  String.mk ((s.data.drop i).take 5)

/-! ### Facts about findRun5 -/

theorem findRun5_cons (c : Char) (cs : List Char) :
    findRun5 (c :: cs) =
      if ((c :: cs).take 5).length = 5 && ((c :: cs).take 5).all Char.isDigit
      then some ((c :: cs).take 5) else findRun5 cs := rfl

theorem run5At_zero (l : List Char) :
    run5At l 0 = ((l.take 5).length = 5 && (l.take 5).all Char.isDigit) := by
  simp [run5At]

theorem run5At_succ (c : Char) (cs : List Char) (i : ℕ) :
    run5At (c :: cs) (i + 1) = run5At cs i := by
  simp [run5At]

/-- findRun5 returns none exactly when no offset carries 5 consecutive
digits. -/
theorem findRun5_eq_none_iff (l : List Char) :
    findRun5 l = none ↔ ∀ i, run5At l i = false := by
  induction l with
  | nil =>
      simp only [findRun5]
      constructor
      · intro _ i
        simp [run5At]
      · intro _; trivial
  | cons c cs ih =>
      rw [findRun5_cons]
      cases hb : (((c :: cs).take 5).length = 5 && ((c :: cs).take 5).all Char.isDigit)
      · rw [if_neg (by simp [hb]), ih]
        constructor
        · intro hall i
          cases i with
          | zero => rw [run5At_zero]; exact hb
          | succ j => rw [run5At_succ]; exact hall j
        · intro hall j
          have := hall (j + 1)
          rwa [run5At_succ] at this
      · rw [if_pos (by simp [hb])]
        constructor
        · intro hcontra; cases hcontra
        · intro hall
          have h0 := hall 0
          rw [run5At_zero] at h0
          rw [h0] at hb
          cases hb

/-- findRun5 returns the window at the first offset carrying 5 consecutive
digits. -/
theorem findRun5_eq_some (l : List Char) (ys : List Char)
    (h : findRun5 l = some ys) :
    ∃ i, run5At l i = true ∧ (∀ j, j < i → run5At l j = false) ∧
      ys = (l.drop i).take 5 := by
  induction l generalizing ys with
  | nil => cases h
  | cons c cs ih =>
      rw [findRun5_cons] at h
      cases hb : (((c :: cs).take 5).length = 5 && ((c :: cs).take 5).all Char.isDigit)
      · rw [if_neg (by rw [hb]; simp)] at h
        obtain ⟨i, hi, hlt, hys⟩ := ih ys h
        refine ⟨i + 1, ?_, ?_, ?_⟩
        · rwa [run5At_succ]
        · intro j hj
          cases j with
          | zero => rw [run5At_zero]; exact hb
          | succ k =>
              rw [run5At_succ]
              exact hlt k (Nat.lt_of_succ_lt_succ hj)
        · simpa using hys
      · rw [if_pos hb] at h
        refine ⟨0, ?_, ?_, ?_⟩
        · rw [run5At_zero]; exact hb
        · intro j hj; cases hj
        · simpa using h.symm

theorem run5At_of_le_length (l : List Char) (i : ℕ) (h : l.length ≤ i) :
    run5At l i = false := by
  simp [run5At, List.drop_eq_nil_of_le h]

theorem run5At_length (l : List Char) (i : ℕ) (h : run5At l i = true) :
    ((l.drop i).take 5).length = 5 := by
  simp only [run5At, Bool.and_eq_true, decide_eq_true_eq] at h
  exact h.1

/-- The zfill step is the identity on any string of length at least 5. -/
theorem zfill_eq_self (s : String) (h : s.length ≥ 5) : zfill 5 s = s := by
  simp [zfill, h]

/-- C4. The ZIP cleaner casts the value to text, strips one trailing
literal dot-zero, extracts the leftmost window of 5 consecutive digits
(values with no such window become missing), and the left-pad-to-5 step
never changes an extracted value. The numeric input 92101.0 (rendered
92101.0 by the text cast) yields 92101, and the input CA 921 yields
missing. -/
theorem claim4_zip_cleaner :
    clean_zip "92101.0" = some "92101" ∧
    clean_zip "CA 921" = none ∧
    (∀ s : String,
        (∀ i, i < (stripDotZero s).data.length →
            run5At (stripDotZero s).data i = false) →
        clean_zip s = none) ∧
    (∀ s r, clean_zip s = some r →
        ∃ i, run5At (stripDotZero s).data i = true ∧
          (∀ j, j < i → run5At (stripDotZero s).data j = false) ∧
          r = winAt (stripDotZero s) i ∧ zfill 5 r = r) := by
  refine ⟨by decide, by decide, ?_, ?_⟩
  · intro s h
    have hall : ∀ i, run5At (stripDotZero s).data i = false := by
      intro i
      by_cases hi : i < (stripDotZero s).data.length
      · exact h i hi
      · exact run5At_of_le_length _ _ (Nat.le_of_not_lt hi)
    have hnone : findRun5 (stripDotZero s).data = none :=
      (findRun5_eq_none_iff _).mpr hall
    simp [clean_zip, extract5, hnone]
  · intro s r h
    cases hf : findRun5 (stripDotZero s).data with
    | none => simp [clean_zip, extract5, hf] at h
    | some ys =>
        have h : zfill 5 (String.mk ys) = r := by
          simpa [clean_zip, extract5, hf] using h
        obtain ⟨i, hi, hlt, hwin⟩ := findRun5_eq_some _ _ hf
        have hlen : ys.length = 5 := by
          rw [hwin]; exact run5At_length _ _ hi
        have hmklen : (String.mk ys).length = 5 := hlen
        have hzf : zfill 5 (String.mk ys) = String.mk ys :=
          zfill_eq_self _ (by omega)
        refine ⟨i, hi, hlt, ?_, ?_⟩
        · rw [← h, hzf, winAt, hwin]
        · rw [← h, hzf]
          exact hzf

/-- Concrete instantiation of the missing-value branch of claim4. -/
theorem claim4_zip_cleaner_witness :
    clean_zip "hello 1234" = none :=
  claim4_zip_cleaner.2.2.1 "hello 1234" (by decide)

/-! ## Header detection (01_combine_liheap_data.py, detect_header_row) -/

/-- The per-row test of detect_header_row, exactly as the code computes it:
the row is first cast with astype(str), under which a missing cell becomes
the text nan; notna is then taken on those strings, so it counts every
cell of the row; the letter test also runs on those strings, so a missing
cell contributes a letter hit through its nan rendering. -/
def headerRowTest (row : List (Option String)) : Bool :=
  let strs := row.map astypeStr
  let hasAlpha := (strs.filter (fun s => s.data.any Char.isAlpha)).length
  let nonNull := strs.length
  nonNull ≥ 3 && hasAlpha ≥ 2

def detectHeaderAux : List (List (Option String)) → ℕ → ℕ
  | [], _ => 0
  | r :: rs, i => if headerRowTest r then i else detectHeaderAux rs (i + 1)

/-- detect_header_row: scan the first 10 rows, return the index of the
first row passing the test, else 0. -/
def detect_header_row (grid : List (List (Option String))) : ℕ :=
  detectHeaderAux (grid.take 10) 0

/-- Modelled from the spec (section 4.1), for contrast with the code: a
header row must have at least 3 genuinely non-empty cells and at least 2
cells that contain a letter; missing cells count for neither. -/
def headerRowContractTest (row : List (Option String)) : Bool :=
  let nonNull := (row.filter (fun c => c.isSome)).length
  let hasAlpha :=
    (row.filter (fun c =>
      match c with
      | some s => s.data.any Char.isAlpha
      | none => false)).length
  nonNull ≥ 3 && hasAlpha ≥ 2

def detectHeaderContractAux : List (List (Option String)) → ℕ → ℕ
  | [], _ => 0
  | r :: rs, i => if headerRowContractTest r then i else detectHeaderContractAux rs (i + 1)

def detectHeaderRowContract (grid : List (List (Option String))) : ℕ :=
  detectHeaderContractAux (grid.take 10) 0

/-- A grid whose first two rows are entirely blank and whose third row has
4 non-empty alphabetic cells. -/
def blankTopGrid : List (List (Option String)) :=
  [ [none, none, none, none],
    [none, none, none, none],
    [some "Year", some "Period", some "Value", some "Notes"] ]

/-- C3, divergence: on a grid whose first two rows are blank, the
implemented detector answers 0, not the 2 the documented contract gives:
after astype(str) a blank cell is the non-null, letter-bearing text nan,
so a fully blank row already passes the test. -/
theorem claim3_header_detection_bug :
    detect_header_row blankTopGrid = 0 ∧
    detectHeaderRowContract blankTopGrid = 2 := by
  constructor
  · decide
  · decide

/-! ## Generic sorting and first-occurrence deduplication

pandas sort_values over several columns is a stable lexicographic sort;
it is embedded as insertion sort over rows tagged with their original
position, with the position as final tie-break. drop_duplicates with
keep set to first is keepFirst. -/

section SortDedup

variable {α : Type} {κ : Type}

/-- Insert into a list sorted by the boolean relation le, before the first
element that is not strictly earlier. -/
def insertLe (le : α → α → Bool) (a : α) : List α → List α
  | [] => [a]
  | b :: bs => if le a b then a :: b :: bs else b :: insertLe le a bs

/-- Insertion sort by a boolean relation. -/
def isort (le : α → α → Bool) : List α → List α
  | [] => []
  | a :: as => insertLe le a (isort le as)

/-- Keep the first row of each key group, in list order; seen is the set of
keys already emitted. -/
def keepFirst [DecidableEq κ] (key : α → κ) : List α → List κ → List α
  | [], _ => []
  | a :: as, seen =>
      if key a ∈ seen then keepFirst key as seen
      else a :: keepFirst key as (key a :: seen)

/-- Tag each element with its position, counting from n. -/
def enumFromN : ℕ → List α → List (ℕ × α)
  | _, [] => []
  | n, a :: as => (n, a) :: enumFromN (n + 1) as

theorem perm_insertLe (le : α → α → Bool) (a : α) (l : List α) :
    List.Perm (insertLe le a l) (a :: l) := by
  induction l with
  | nil => exact List.Perm.refl _
  | cons b bs ih =>
      simp only [insertLe]
      by_cases h : le a b
      · simp [h]
      · rw [if_neg h]
        exact List.Perm.trans (List.Perm.cons b ih) (List.Perm.swap _ _ _)

theorem perm_isort (le : α → α → Bool) (l : List α) :
    List.Perm (isort le l) l := by
  induction l with
  | nil => exact List.Perm.refl _
  | cons a as ih =>
      simp only [isort]
      exact List.Perm.trans (perm_insertLe le a (isort le as)) (List.Perm.cons a ih)

theorem pairwise_insertLe (le : α → α → Bool)
    (hTotal : ∀ a b, le a b = true ∨ le b a = true)
    (hTrans : ∀ a b c, le a b = true → le b c = true → le a c = true)
    (a : α) (l : List α)
    (h : l.Pairwise (fun x y => le x y = true)) :
    (insertLe le a l).Pairwise (fun x y => le x y = true) := by
  induction l with
  | nil => simp [insertLe]
  | cons b bs ih =>
      simp only [insertLe]
      rcases List.pairwise_cons.mp h with ⟨hb, hbs⟩
      by_cases hab : le a b = true
      · rw [if_pos hab]
        refine List.pairwise_cons.mpr ⟨?_, h⟩
        intro x hx
        rcases List.mem_cons.mp hx with rfl | hx
        · exact hab
        · exact hTrans a b x hab (hb x hx)
      · rw [if_neg hab]
        refine List.pairwise_cons.mpr ⟨?_, ih hbs⟩
        intro x hx
        have hx' := (perm_insertLe le a bs).mem_iff.mp hx
        rcases List.mem_cons.mp hx' with heq | hx''
        · rw [heq]
          rcases hTotal a b with h1 | h1
          · exact absurd h1 hab
          · exact h1
        · exact hb x hx''

theorem pairwise_isort (le : α → α → Bool)
    (hTotal : ∀ a b, le a b = true ∨ le b a = true)
    (hTrans : ∀ a b c, le a b = true → le b c = true → le a c = true)
    (l : List α) :
    (isort le l).Pairwise (fun x y => le x y = true) := by
  induction l with
  | nil => simp [isort]
  | cons a as ih =>
      simp only [isort]
      exact pairwise_insertLe le hTotal hTrans a (isort le as) ih

/-- A list already sorted for le is a fixed point of isort. -/
theorem isort_of_pairwise (le : α → α → Bool) (l : List α)
    (h : l.Pairwise (fun x y => le x y = true)) : isort le l = l := by
  induction l with
  | nil => rfl
  | cons a as ih =>
      rcases List.pairwise_cons.mp h with ⟨ha, has⟩
      simp only [isort, ih has]
      cases as with
      | nil => rfl
      | cons b bs =>
          simp only [insertLe]
          rw [if_pos (ha b (List.mem_cons_self b bs))]

/-- Two sorted lists that are permutations of each other coincide when the
relation is antisymmetric. -/
theorem sorted_perm_eq (le : α → α → Bool)
    (hAntisymm : ∀ a b, le a b = true → le b a = true → a = b)
    (l₁ l₂ : List α) (hp : List.Perm l₁ l₂)
    (h₁ : l₁.Pairwise (fun x y => le x y = true))
    (h₂ : l₂.Pairwise (fun x y => le x y = true)) : l₁ = l₂ := by
  haveI : IsAntisymm α (fun x y => le x y = true) := ⟨hAntisymm⟩
  exact List.eq_of_perm_of_sorted hp h₁ h₂

/-- keepFirst yields a sublist of its input. -/
theorem keepFirst_sublist [DecidableEq κ] (key : α → κ) (l : List α)
    (seen : List κ) : List.Sublist (keepFirst key l seen) l := by
  induction l generalizing seen with
  | nil => simp [keepFirst]
  | cons a as ih =>
      simp only [keepFirst]
      by_cases h : key a ∈ seen
      · rw [if_pos h]
        exact List.Sublist.cons a (ih seen)
      · rw [if_neg h]
        exact List.Sublist.cons₂ a (ih (key a :: seen))

theorem mem_of_mem_keepFirst [DecidableEq κ] (key : α → κ) (l : List α)
    (seen : List κ) {a : α} (h : a ∈ keepFirst key l seen) : a ∈ l :=
  (keepFirst_sublist key l seen).mem h

/-- No emitted row has a key in the already-seen set. -/
theorem key_not_seen_of_mem_keepFirst [DecidableEq κ] (key : α → κ)
    (l : List α) (seen : List κ) {a : α} (h : a ∈ keepFirst key l seen) :
    key a ∉ seen := by
  induction l generalizing seen with
  | nil => simp [keepFirst] at h
  | cons b bs ih =>
      simp only [keepFirst] at h
      by_cases hb : key b ∈ seen
      · rw [if_pos hb] at h
        exact ih seen h
      · rw [if_neg hb] at h
        rcases List.mem_cons.mp h with rfl | h'
        · exact hb
        · intro hmem
          exact ih (key b :: seen) h' (List.mem_cons_of_mem _ hmem)

/-- The keys of the emitted rows are pairwise distinct. -/
theorem keys_nodup_keepFirst [DecidableEq κ] (key : α → κ) (l : List α)
    (seen : List κ) : ((keepFirst key l seen).map key).Nodup := by
  induction l generalizing seen with
  | nil => simp [keepFirst]
  | cons a as ih =>
      simp only [keepFirst]
      by_cases h : key a ∈ seen
      · rw [if_pos h]; exact ih seen
      · rw [if_neg h]
        refine List.nodup_cons.mpr ⟨?_, ih (key a :: seen)⟩
        intro hmem
        rcases List.mem_map.mp hmem with ⟨b, hb, hkey⟩
        exact key_not_seen_of_mem_keepFirst key as (key a :: seen) hb
          (by rw [hkey]; exact List.mem_cons_self _ _)

/-- On a list whose keys are already distinct and disjoint from seen,
keepFirst keeps everything. -/
theorem keepFirst_of_nodup [DecidableEq κ] (key : α → κ) (l : List α)
    (seen : List κ) (hnd : (l.map key).Nodup)
    (hdisj : ∀ a ∈ l, key a ∉ seen) : keepFirst key l seen = l := by
  induction l generalizing seen with
  | nil => rfl
  | cons a as ih =>
      simp only [keepFirst]
      rw [if_neg (hdisj a (List.mem_cons_self a as))]
      congr 1
      have hnd2 : (key a ∉ as.map key) ∧ (as.map key).Nodup := by
        rw [List.map_cons] at hnd
        exact List.nodup_cons.mp hnd
      refine ih (key a :: seen) hnd2.2 ?_
      intro b hb hmem
      rcases List.mem_cons.mp hmem with heq | hmem'
      · exact hnd2.1 (by rw [← heq]; exact List.mem_map_of_mem key hb)
      · exact hdisj b (List.mem_cons_of_mem a hb) hmem'

/-- Every key of the input that is not already seen is represented in the
output. -/
theorem exists_mem_keepFirst [DecidableEq κ] (key : α → κ) (l : List α)
    (seen : List κ) {a : α} (ha : a ∈ l) (hseen : key a ∉ seen) :
    ∃ b ∈ keepFirst key l seen, key b = key a := by
  induction l generalizing seen with
  | nil => cases ha
  | cons c cs ih =>
      simp only [keepFirst]
      by_cases hc : key c ∈ seen
      · rw [if_pos hc]
        rcases List.mem_cons.mp ha with heq | ha'
        · exact absurd (by rw [← heq] at hc; exact hc) hseen
        · exact ih seen ha' hseen
      · rw [if_neg hc]
        by_cases hkey : key a = key c
        · exact ⟨c, List.mem_cons_self _ _, hkey.symm⟩
        · rcases List.mem_cons.mp ha with heq | ha'
          · exact absurd (by rw [heq]) hkey
          · obtain ⟨b, hb, hkb⟩ := ih (key c :: seen) ha' (by
              intro hmem
              rcases List.mem_cons.mp hmem with h1 | h2
              · exact hkey h1
              · exact hseen h2)
            exact ⟨b, List.mem_cons_of_mem c hb, hkb⟩

/-- In a sorted list, the emitted representative of a key group is minimal
for le among the whole group. -/
theorem keepFirst_min [DecidableEq κ] (key : α → κ) (le : α → α → Bool)
    (hTotal : ∀ a b, le a b = true ∨ le b a = true)
    (l : List α) (seen : List κ)
    (hsort : l.Pairwise (fun x y => le x y = true))
    {b : α} (hb : b ∈ keepFirst key l seen) :
    ∀ q ∈ l, key q = key b → le b q = true := by
  induction l generalizing seen with
  | nil => cases hb
  | cons c cs ih =>
      rcases List.pairwise_cons.mp hsort with ⟨hc, hcs⟩
      simp only [keepFirst] at hb
      by_cases hcseen : key c ∈ seen
      · rw [if_pos hcseen] at hb
        intro q hq hkey
        rcases List.mem_cons.mp hq with heq | hq'
        · have hnot : key b ∉ seen := key_not_seen_of_mem_keepFirst key cs seen hb
          exact absurd (by rw [← hkey, heq]; exact hcseen) hnot
        · exact ih seen hcs hb q hq' hkey
      · rw [if_neg hcseen] at hb
        rcases List.mem_cons.mp hb with heq | hb'
        · intro q hq hkey
          rcases List.mem_cons.mp hq with heq' | hq'
          · rw [heq, heq']
            rcases hTotal c c with h1 | h1 <;> exact h1
          · rw [heq]; exact hc q hq'
        · intro q hq hkey
          rcases List.mem_cons.mp hq with heq' | hq'
          · have hnot : key b ∉ key c :: seen :=
              key_not_seen_of_mem_keepFirst key cs (key c :: seen) hb'
            rw [heq'] at hkey
            exact absurd (by rw [← hkey]; exact List.mem_cons_self _ _) hnot
          · exact ih (key c :: seen) hcs hb' q hq' hkey

/-! ### Position tagging -/

theorem enumFromN_map_snd (n : ℕ) (l : List α) :
    (enumFromN n l).map Prod.snd = l := by
  induction l generalizing n with
  | nil => rfl
  | cons a as ih => simp [enumFromN, ih]

theorem mem_enumFromN_le (n : ℕ) (l : List α) {p : ℕ × α}
    (h : p ∈ enumFromN n l) : n ≤ p.1 := by
  induction l generalizing n with
  | nil => cases h
  | cons a as ih =>
      rcases List.mem_cons.mp h with heq | h'
      · rw [heq]
      · exact Nat.le_of_lt (Nat.lt_of_lt_of_le (Nat.lt_succ_self n) (ih (n + 1) h'))

/-- Positions are strictly increasing along the tagged list. -/
theorem pairwise_fst_lt_enumFromN (n : ℕ) (l : List α) :
    (enumFromN n l).Pairwise (fun p q => p.1 < q.1) := by
  induction l generalizing n with
  | nil => exact List.Pairwise.nil
  | cons a as ih =>
      refine List.pairwise_cons.mpr ⟨?_, ih (n + 1)⟩
      intro q hq
      exact Nat.lt_of_lt_of_le (Nat.lt_succ_self n) (mem_enumFromN_le (n + 1) as hq)

end SortDedup

/-! ## Stage 1 record model (01_combine_liheap_data.py)

A raw combined row (df_all after concatenation): the date cell is carried
as its parse_date result, a (year, month) pair or none for an unparseable
or missing date, and the amount cell as its clean_pledge_amount result,
since those parses are pandas capabilities the properties do not inspect.
The raw Zip_Code cell stays textual because the ZIP handling is under
test. -/

structure RawRecord where
  city : Option String
  zipRaw : Option String
  created : Option (ℕ × ℕ)
  amount : Option ℚ
  src : String
deriving DecidableEq, Repr

/-- A cleaned row after clean_core_columns. -/
structure CleanRecord where
  city : Option String
  zip : Option String
  created : Option (ℕ × ℕ)
  yearMo : String
  amount : Option ℚ
  src : String
deriving DecidableEq, Repr

/-- One decimal digit character. -/
def digit (n : ℕ) : Char := Nat.digitChar (n % 10)

/-- The text rendering of a monthly period, a zero-padded YYYY-MM string
(years in this data are four digits). -/
def yearMoStr (y m : ℕ) : String :=
  String.mk [digit (y / 1000), digit (y / 100), digit (y / 10), digit y,
    '-', digit (m / 10), digit m]

/-- dt.to_period(M).astype(str): a missing date renders as the text NaT. -/
def toYearMo : Option (ℕ × ℕ) → String
  | none => "NaT"
  | some (y, m) => yearMoStr y m

/-- The missing-Zip test of clean_core_columns, on the raw cell: isna, or
blank after strip, or the text NAN after strip and upper. -/
def missingZip (z : Option String) : Bool :=
  z.isNone || (strip (astypeStr z) == "") || (upper (strip (astypeStr z)) == "NAN")

/-- clean_core_columns: drop rows whose raw Zip_Code is missing, then clean
the ZIP, parse the date, derive YearMo, clean the amount. Rows whose ZIP
fails the 5-digit extraction are NOT dropped here: their zip becomes
missing and they stay. -/
def clean_core_columns (df : List RawRecord) : List CleanRecord :=
  (df.filter (fun r => !(missingZip r.zipRaw))).map (fun r =>
    { city := r.city
      zip := clean_zip (astypeStr r.zipRaw)
      created := r.created
      yearMo := toYearMo r.created
      amount := r.amount
      src := r.src })

/-! ## Deduplication (01_combine_liheap_data.py, deduplicate) -/

/-- Embed a possibly missing value so that missing sorts last, as pandas
sort_values places NaN with na_position last. -/
def toTop {α : Type} : Option α → WithTop α
  | none => ⊤
  | some a => (a : WithTop α)

/-- The duplicate key: the (Zip_Code, YearMo, Pledge_Amount) triple. -/
def dedupKey (r : CleanRecord) : WithTop String ×ₗ String ×ₗ WithTop ℚ :=
  toLex (toTop r.zip, toLex (r.yearMo, toTop r.amount))

/-- Sort key of the stable multi-column sort: the dedup triple first, the
original row position as tie-break (pandas lexsort is stable). -/
def dedupSortKey (p : ℕ × CleanRecord) :
    (WithTop String ×ₗ String ×ₗ WithTop ℚ) ×ₗ ℕ :=
  toLex (dedupKey p.2, p.1)

def dedupLe (p q : ℕ × CleanRecord) : Bool :=
  decide (dedupSortKey p ≤ dedupSortKey q)

/-- sort_values on the dedup columns, embedded stably. -/
def sortByDedupKey (df : List CleanRecord) : List CleanRecord :=
  (isort dedupLe (enumFromN 0 df)).map Prod.snd

/-- deduplicate: sort by the triple, then drop_duplicates keeping the
first occurrence of each triple. -/
def deduplicate (df : List CleanRecord) : List CleanRecord :=
  keepFirst dedupKey (sortByDedupKey df) []

theorem dedupLe_total (p q : ℕ × CleanRecord) :
    dedupLe p q = true ∨ dedupLe q p = true := by
  simp only [dedupLe, decide_eq_true_eq]
  exact le_total _ _

theorem dedupLe_trans (p q r : ℕ × CleanRecord)
    (h1 : dedupLe p q = true) (h2 : dedupLe q r = true) :
    dedupLe p r = true := by
  simp only [dedupLe, decide_eq_true_eq] at *
  exact le_trans h1 h2

/-- The sorted table is pairwise ordered on the dedup key. -/
theorem pairwise_key_sortByDedupKey (df : List CleanRecord) :
    (sortByDedupKey df).Pairwise (fun r s => dedupKey r ≤ dedupKey s) := by
  have hs := pairwise_isort dedupLe dedupLe_total dedupLe_trans (enumFromN 0 df)
  rw [sortByDedupKey, List.pairwise_map]
  refine hs.imp ?_
  intro p q h
  simp only [dedupLe, decide_eq_true_eq, dedupSortKey] at h
  rcases (Prod.Lex.le_iff _ _).mp h with h1 | ⟨h1, _⟩
  · exact le_of_lt h1
  · exact le_of_eq h1

/-- Sorting is a fixed point on a table that is pairwise ordered on the
dedup key: tagging with strictly increasing positions turns the weak key
order into the strict lexicographic sort order. -/
theorem sortByDedupKey_of_pairwise (df : List CleanRecord)
    (h : df.Pairwise (fun r s => dedupKey r ≤ dedupKey s)) :
    sortByDedupKey df = df := by
  have hidx := pairwise_fst_lt_enumFromN 0 df
  have hkey : (enumFromN 0 df).Pairwise
      (fun p q => dedupKey p.2 ≤ dedupKey q.2) := by
    have := enumFromN_map_snd 0 df
    rw [← this, List.pairwise_map] at h
    exact h
  have hboth := hidx.and hkey
  have hsorted : (enumFromN 0 df).Pairwise (fun p q => dedupLe p q = true) := by
    refine hboth.imp ?_
    intro p q hpq
    simp only [dedupLe, decide_eq_true_eq, dedupSortKey]
    rcases lt_or_eq_of_le hpq.2 with hlt | heq
    · exact (Prod.Lex.le_iff _ _).mpr (Or.inl hlt)
    · exact (Prod.Lex.le_iff _ _).mpr (Or.inr ⟨heq, Nat.le_of_lt hpq.1⟩)
  rw [sortByDedupKey, isort_of_pairwise dedupLe _ hsorted, enumFromN_map_snd]

/-- C5. Deduplication (sort by the (ZipCode, YearMonth, PledgeAmount)
triple, keep the first occurrence of each triple) is idempotent: applied
to its own output it removes nothing and returns the table unchanged. -/
theorem claim5_dedup_idempotent (df : List CleanRecord) :
    deduplicate (deduplicate df) = deduplicate df := by
  have hsorted : (deduplicate df).Pairwise
      (fun r s => dedupKey r ≤ dedupKey s) := by
    refine List.Pairwise.sublist ?_ (pairwise_key_sortByDedupKey df)
    exact keepFirst_sublist dedupKey (sortByDedupKey df) []
  have hnodup : ((deduplicate df).map dedupKey).Nodup :=
    keys_nodup_keepFirst dedupKey (sortByDedupKey df) []
  rw [deduplicate, sortByDedupKey_of_pairwise _ hsorted]
  exact keepFirst_of_nodup dedupKey (deduplicate df) [] hnodup
    (by intro a _ hmem; cases hmem)

/-- The head of an insertion sort is a minimum of the list. -/
theorem isort_head_min {α : Type} (le : α → α → Bool)
    (hTotal : ∀ a b, le a b = true ∨ le b a = true)
    (hTrans : ∀ a b c, le a b = true → le b c = true → le a c = true)
    (l : List α) (c : α) (rest : List α) (h : isort le l = c :: rest) :
    c ∈ l ∧ ∀ x ∈ l, le c x = true := by
  have hsorted := pairwise_isort le hTotal hTrans l
  have hperm := perm_isort le l
  rw [h] at hsorted hperm
  constructor
  · exact hperm.subset (List.mem_cons_self c rest)
  · intro x hx
    have hx' := hperm.symm.subset hx
    rcases List.mem_cons.mp hx' with heq | hxr
    · rw [heq]
      rcases hTotal c c with h1 | h1 <;> exact h1
    · exact (List.pairwise_cons.mp hsorted).1 x hxr

/-! ## Internal city majority map
(01_combine_liheap_data.py, build_zip_city_from_internal) -/

/-- The missing-City test, identical in shape to the missing-Zip test. -/
def missingCity (c : Option String) : Bool :=
  c.isNone || (strip (astypeStr c) == "") || (upper (strip (astypeStr c)) == "NAN")

/-- The (Zip_Code, normalized City) pairs the mapping is built from: rows
whose City is present, City uppercased and stripped, rows with a missing
Zip_Code dropped (the dropna and the groupby both discard them). -/
def cityPairs (df : List CleanRecord) : List (String × String) :=
  df.filterMap (fun r =>
    if missingCity r.city then none
    else
      match r.zip with
      | none => none
      | some z => some (z, upper (strip (astypeStr r.city))))

/-- Occurrences of city c under ZIP z. -/
def cityCount (ps : List (String × String)) (z c : String) : ℕ :=
  (ps.filter (fun p => p = (z, c))).length

/-- The distinct city values recorded under ZIP z. -/
def citiesFor (z : String) (ps : List (String × String)) : List String :=
  (ps.filterMap (fun p => if p.1 = z then some p.2 else none)).dedup

/-- The preference order of value_counts().sort_index().idxmax(): higher
count first, lexicographically smaller city first among equal counts. -/
def cityLe (ps : List (String × String)) (z : String) (c d : String) : Bool :=
  decide (cityCount ps z d < cityCount ps z c ∨
    (cityCount ps z c = cityCount ps z d ∧ c ≤ d))

/-- build_zip_city_from_internal as a lookup function: for each ZIP the
best city under the preference order, none when the ZIP has no valid city
row. -/
def build_zip_city_from_internal (df : List CleanRecord) (z : String) :
    Option String :=
  match isort (cityLe (cityPairs df) z) (citiesFor z (cityPairs df)) with
  | [] => none
  | c :: _ => some c

theorem cityLe_total (ps : List (String × String)) (z : String)
    (c d : String) : cityLe ps z c d = true ∨ cityLe ps z d c = true := by
  simp only [cityLe, decide_eq_true_eq]
  rcases Nat.lt_trichotomy (cityCount ps z c) (cityCount ps z d) with h | h | h
  · exact Or.inr (Or.inl h)
  · rcases le_total c d with h2 | h2
    · exact Or.inl (Or.inr ⟨h, h2⟩)
    · exact Or.inr (Or.inr ⟨h.symm, h2⟩)
  · exact Or.inl (Or.inl h)

theorem cityLe_trans (ps : List (String × String)) (z : String)
    (a b c : String) (h1 : cityLe ps z a b = true)
    (h2 : cityLe ps z b c = true) : cityLe ps z a c = true := by
  simp only [cityLe, decide_eq_true_eq] at *
  rcases h1 with h1 | ⟨h1a, h1b⟩ <;> rcases h2 with h2 | ⟨h2a, h2b⟩
  · exact Or.inl (lt_trans h2 h1)
  · exact Or.inl (by rw [← h2a]; exact h1)
  · exact Or.inl (by rw [h1a]; exact h2)
  · exact Or.inr ⟨by rw [h1a, h2a], le_trans h1b h2b⟩

theorem cityLe_antisymm (ps : List (String × String)) (z : String)
    (a b : String) (h1 : cityLe ps z a b = true)
    (h2 : cityLe ps z b a = true) : a = b := by
  simp only [cityLe, decide_eq_true_eq] at *
  rcases h1 with h1 | ⟨h1a, h1b⟩ <;> rcases h2 with h2 | ⟨h2a, h2b⟩
  · exact absurd (lt_trans h1 h2) (lt_irrefl _)
  · exact absurd h1 (by rw [h2a]; exact lt_irrefl _)
  · exact absurd h2 (by rw [h1a]; exact lt_irrefl _)
  · exact le_antisymm h1b h2b

/-- C6. For every ZIP with at least one valid city row, the internal
mapping returns the city with the highest occurrence count under that ZIP,
ties resolved to the lexicographically smallest city; and the mapping is
unchanged under any permutation of the input rows. -/
theorem claim6_city_majority_map :
    (∀ df z c, build_zip_city_from_internal df z = some c →
        c ∈ citiesFor z (cityPairs df) ∧
        ∀ d ∈ citiesFor z (cityPairs df),
          cityCount (cityPairs df) z d < cityCount (cityPairs df) z c ∨
          (cityCount (cityPairs df) z c = cityCount (cityPairs df) z d ∧
            c ≤ d)) ∧
    (∀ df z, (∃ p ∈ cityPairs df, p.1 = z) →
        ∃ c, build_zip_city_from_internal df z = some c) ∧
    (∀ df df', List.Perm df df' → ∀ z,
        build_zip_city_from_internal df z =
          build_zip_city_from_internal df' z) := by
  refine ⟨?_, ?_, ?_⟩
  · intro df z c h
    rw [build_zip_city_from_internal] at h
    cases hs : isort (cityLe (cityPairs df) z) (citiesFor z (cityPairs df)) with
    | nil => rw [hs] at h; cases h
    | cons c0 rest =>
        rw [hs] at h
        have hc0 : c0 = c := by
          simpa using h
        obtain ⟨hmem, hmin⟩ := isort_head_min _ (cityLe_total _ z)
          (cityLe_trans _ z) _ c0 rest hs
        rw [hc0] at hmem hmin
        refine ⟨hmem, ?_⟩
        intro d hd
        have := hmin d hd
        simpa only [cityLe, decide_eq_true_eq] using this
  · intro df z hz
    obtain ⟨p, hp, hfst⟩ := hz
    have hmem : p.2 ∈ citiesFor z (cityPairs df) := by
      rw [citiesFor, List.mem_dedup]
      refine List.mem_filterMap.mpr ⟨p, hp, ?_⟩
      rw [if_pos hfst]
    have hne : citiesFor z (cityPairs df) ≠ [] := by
      intro hnil; rw [hnil] at hmem; cases hmem
    rw [build_zip_city_from_internal]
    cases hs : isort (cityLe (cityPairs df) z) (citiesFor z (cityPairs df)) with
    | nil =>
        have := perm_isort (cityLe (cityPairs df) z) (citiesFor z (cityPairs df))
        rw [hs] at this
        exact absurd (this.symm.length_eq ▸ rfl : (citiesFor z (cityPairs df)).length = 0)
          (by intro hlen; exact hne (List.eq_nil_of_length_eq_zero hlen))
    | cons c0 rest => exact ⟨c0, rfl⟩
  · intro df df' hperm z
    have hpairs : List.Perm (cityPairs df) (cityPairs df') :=
      hperm.filterMap _
    have hcount : ∀ c, cityCount (cityPairs df) z c =
        cityCount (cityPairs df') z c := by
      intro c
      simpa [cityCount] using (hpairs.filter (fun p => p = (z, c))).length_eq
    have hle : cityLe (cityPairs df) z = cityLe (cityPairs df') z := by
      funext c d
      rw [cityLe, cityLe, hcount c, hcount d]
    have hcities : List.Perm (citiesFor z (cityPairs df))
        (citiesFor z (cityPairs df')) :=
      (hpairs.filterMap _).dedup
    have hsorted : isort (cityLe (cityPairs df) z) (citiesFor z (cityPairs df)) =
        isort (cityLe (cityPairs df') z) (citiesFor z (cityPairs df')) := by
      rw [← hle]
      refine sorted_perm_eq (cityLe (cityPairs df) z)
        (cityLe_antisymm (cityPairs df) z) _ _ ?_ ?_ ?_
      · exact ((perm_isort _ _).trans hcities).trans (perm_isort _ _).symm
      · exact pairwise_isort _ (cityLe_total _ z) (cityLe_trans _ z) _
      · exact pairwise_isort _ (cityLe_total _ z) (cityLe_trans _ z) _
    rw [build_zip_city_from_internal, build_zip_city_from_internal, hsorted]

/-- Concrete instantiation of claim6: the mapping is invariant under
swapping two rows, and the majority city wins on a small table. -/
theorem claim6_city_majority_map_witness :
    build_zip_city_from_internal
        [⟨some "la mesa", some "91941", none, "2024-01", none, "a"⟩,
         ⟨some "La Mesa", some "91941", none, "2024-02", none, "b"⟩] "91941" =
      build_zip_city_from_internal
        [⟨some "La Mesa", some "91941", none, "2024-02", none, "b"⟩,
         ⟨some "la mesa", some "91941", none, "2024-01", none, "a"⟩] "91941" :=
  claim6_city_majority_map.2.2 _ _ (List.Perm.swap _ _ _) "91941"

theorem mem_enumFromN_of_mem {α : Type} {a : α} {l : List α} (n : ℕ)
    (h : a ∈ l) : ∃ p ∈ enumFromN n l, p.2 = a := by
  induction l generalizing n with
  | nil => cases h
  | cons b bs ih =>
      rcases List.mem_cons.mp h with heq | h'
      · exact ⟨(n, b), List.mem_cons_self _ _, heq.symm⟩
      · obtain ⟨p, hp, hpa⟩ := ih (n + 1) h'
        exact ⟨p, List.mem_cons_of_mem _ hp, hpa⟩

theorem snd_mem_of_mem_enumFromN {α : Type} {p : ℕ × α} {l : List α} (n : ℕ)
    (h : p ∈ enumFromN n l) : p.2 ∈ l := by
  induction l generalizing n with
  | nil => cases h
  | cons b bs ih =>
      rcases List.mem_cons.mp h with heq | h'
      · rw [heq]; exact List.mem_cons_self _ _
      · exact List.mem_cons_of_mem _ (ih (n + 1) h')

/-! ## Dominant county assignment
(05_build_bls_laus_ca_county_full_from_ui.py, step 3 and step 4) -/

/-- One crosswalk row: the ZIP, COUNTY and state cells as text, the
TOT_RATIO weight as a rational. -/
structure XwRow where
  zipCell : String
  county : String
  state : String
  weight : ℚ
deriving DecidableEq, Repr

/-- Step 3: filter the crosswalk to rows whose state uppercases to CA. -/
def xwCA (xw : List XwRow) : List XwRow :=
  xw.filter (fun r => upper r.state == "CA")

/-- The standardized join key of a crosswalk row, ZIP zfilled to 5. -/
def zipKey (p : ℕ × XwRow) : String := zfill 5 p.2.zipCell

/-- The sort key of step 4: Zip_Code ascending, TOT_RATIO descending
(negated), original position as stable tie-break. -/
def xwSortKey (p : ℕ × XwRow) : List Char ×ₗ ℚ ×ₗ ℕ :=
  toLex ((zipKey p).data, toLex (-p.2.weight, p.1))

def xwLe (p q : ℕ × XwRow) : Bool :=
  decide (xwSortKey p ≤ xwSortKey q)

/-- Step 4 of stage 5: stable sort by (Zip_Code asc, TOT_RATIO desc), then
drop_duplicates on Zip_Code keeping the first row. The rows keep their
original positions for the statement of the tie-break property. -/
def df_zip_primary (xw : List XwRow) : List (ℕ × XwRow) :=
  keepFirst zipKey (isort xwLe (enumFromN 0 (xwCA xw))) []

/-- The emitted assignment table: Zip_Code, County_FIPS (county zfilled),
weight. -/
structure ZipPrimaryRow where
  zip : String
  fips : String
  weight : ℚ
deriving DecidableEq, Repr

def zipPrimaryOut (xw : List XwRow) : List ZipPrimaryRow :=
  (df_zip_primary xw).map (fun p =>
    ⟨zipKey p, zfill 5 p.2.county, p.2.weight⟩)

theorem xwLe_total (p q : ℕ × XwRow) :
    xwLe p q = true ∨ xwLe q p = true := by
  simp only [xwLe, decide_eq_true_eq]
  exact le_total _ _

theorem xwLe_trans (p q r : ℕ × XwRow) (h1 : xwLe p q = true)
    (h2 : xwLe q r = true) : xwLe p r = true := by
  simp only [xwLe, decide_eq_true_eq] at *
  exact le_trans h1 h2

/-- C7. After the state filter, the assignment has exactly one row per
ZIP present in the filtered crosswalk (keys distinct, and a ZIP appears in
the output exactly when it appears in the filtered crosswalk), and the
selected candidate row carries the maximum weight for its ZIP, ties going
to the candidate with the earliest original position. -/
theorem claim7_dominant_county :
    (∀ xw, ((df_zip_primary xw).map zipKey).Nodup) ∧
    (∀ xw z, (∃ r ∈ xwCA xw, zfill 5 r.zipCell = z) ↔
        (∃ p ∈ df_zip_primary xw, zipKey p = z)) ∧
    (∀ xw p, p ∈ df_zip_primary xw →
        p ∈ enumFromN 0 (xwCA xw) ∧
        ∀ q ∈ enumFromN 0 (xwCA xw), zipKey q = zipKey p →
          (q.2.weight < p.2.weight ∨
            (q.2.weight = p.2.weight ∧ p.1 ≤ q.1))) := by
  refine ⟨?_, ?_, ?_⟩
  · intro xw
    exact keys_nodup_keepFirst zipKey _ []
  · intro xw z
    constructor
    · intro ⟨r, hr, hz⟩
      obtain ⟨p, hp, hpr⟩ := mem_enumFromN_of_mem 0 hr
      have hp' : p ∈ isort xwLe (enumFromN 0 (xwCA xw)) :=
        (perm_isort xwLe _).symm.subset hp
      obtain ⟨b, hb, hkb⟩ := exists_mem_keepFirst zipKey _ [] hp'
        (by intro hmem; cases hmem)
      refine ⟨b, hb, ?_⟩
      rw [hkb, zipKey, hpr, hz]
    · intro ⟨p, hp, hz⟩
      have hp' : p ∈ enumFromN 0 (xwCA xw) :=
        (perm_isort xwLe _).subset (mem_of_mem_keepFirst zipKey _ [] hp)
      refine ⟨p.2, snd_mem_of_mem_enumFromN 0 hp', ?_⟩
      rw [← hz, zipKey]
  · intro xw p hp
    have hsort := pairwise_isort xwLe xwLe_total xwLe_trans
      (enumFromN 0 (xwCA xw))
    have hp' : p ∈ enumFromN 0 (xwCA xw) :=
      (perm_isort xwLe _).subset (mem_of_mem_keepFirst zipKey _ [] hp)
    refine ⟨hp', ?_⟩
    intro q hq hkey
    have hq' : q ∈ isort xwLe (enumFromN 0 (xwCA xw)) :=
      (perm_isort xwLe _).symm.subset hq
    have hle := keepFirst_min zipKey xwLe xwLe_total _ [] hsort hp q hq' hkey
    simp only [xwLe, decide_eq_true_eq, xwSortKey] at hle
    rcases (Prod.Lex.le_iff _ _).mp hle with h1 | ⟨_, h2⟩
    · exact absurd h1 (by rw [hkey]; exact lt_irrefl _)
    · rcases (Prod.Lex.le_iff _ _).mp h2 with h3 | ⟨h3, h4⟩
      · simp only at h3
        exact Or.inl (by exact neg_lt_neg_iff.mp h3)
      · simp only at h3 h4
        exact Or.inr ⟨(neg_inj.mp h3).symm, h4⟩

def xwRowA : XwRow := ⟨"92101", "6073", "CA", 3⟩

def xwRowB : XwRow := ⟨"92101", "6059", "ca", 2⟩

/-- Concrete instantiation of claim7: on a two-candidate crosswalk the
selected row dominates the other candidate of the same ZIP. -/
theorem claim7_dominant_county_witness :
    ((1 : ℕ), xwRowB).2.weight < ((0 : ℕ), xwRowA).2.weight ∨
    (((1 : ℕ), xwRowB).2.weight = ((0 : ℕ), xwRowA).2.weight ∧
      ((0 : ℕ), xwRowA).1 ≤ ((1 : ℕ), xwRowB).1) :=
  (claim7_dominant_county.2.2 [xwRowA, xwRowB] ((0 : ℕ), xwRowA)
      (by decide)).2 ((1 : ℕ), xwRowB) (by decide) (by decide)

/-! ## Left joins of stages 3, 5 and 6
(03_join_liheap_acs_data.py, 05_build_bls_laus_ca_county_full_from_ui.py,
06_join_liheap_acs_unemployment.py)

pandas merge with how left: every left row is kept; a left row with no
key match yields one output row with missing right fields; a left row
with several key matches yields one output row per match, in right-table
order. -/

def leftMerge {L R K : Type} [DecidableEq K] (keyL : L → K) (keyR : R → K) :
    List L → List R → List (L × Option R)
  | [], _ => []
  | a :: as, rs =>
      (match rs.filter (fun b => keyR b = keyL a) with
       | [] => [(a, none)]
       | bs => bs.map (fun b => (a, some b))) ++ leftMerge keyL keyR as rs

/-- One row of the stage-2 aggregate (left input of stage 3). -/
structure LiheapAgg where
  zip : String
  year : ℤ
  totalPledge : ℚ
  recordCount : ℕ
deriving DecidableEq, Repr

/-- One row of the ACS income reference. -/
structure IncomeRow where
  zip : String
  medianIncome : Option ℚ
deriving DecidableEq, Repr

/-- One row of the ACS population reference. -/
structure PopRow where
  zip : String
  population : Option ℚ
deriving DecidableEq, Repr

/-- Stage 3, join 1: LIHEAP aggregates with income, on Zip_Code only. -/
def stage3Join1 (l : List LiheapAgg) (r : List IncomeRow) :
    List (LiheapAgg × Option IncomeRow) :=
  leftMerge LiheapAgg.zip IncomeRow.zip l r

/-- Stage 3, join 2: the combined frame with population, on Zip_Code. -/
def stage3Join2 (l : List (LiheapAgg × Option IncomeRow)) (r : List PopRow) :
    List ((LiheapAgg × Option IncomeRow) × Option PopRow) :=
  leftMerge (fun x => x.1.zip) PopRow.zip l r

/-- One row of the prepared county unemployment table (right input of the
stage-5 join): one row per county and year. -/
structure BlsCleanRow where
  year : ℤ
  fips : String
  county : String
  rate : Option ℚ
deriving DecidableEq, Repr

/-- Stage 5, step 5: the per-ZIP dominant-county table joined with county
unemployment, on County_FIPS. -/
def stage5Join (l : List ZipPrimaryRow) (r : List BlsCleanRow) :
    List (ZipPrimaryRow × Option BlsCleanRow) :=
  leftMerge ZipPrimaryRow.fips BlsCleanRow.fips l r

/-- One row of the stage-3 output (left input of stage 6). -/
structure AcsCombinedRow where
  zip : String
  year : ℤ
  totalPledge : ℚ
  recordCount : ℕ
  medianIncome : Option ℚ
  population : Option ℚ
deriving DecidableEq, Repr

/-- One row of the ZIP-level unemployment table (right input of stage 6). -/
structure UnempRow where
  zip : String
  year : ℤ
  rate : Option ℚ
  county : String
  fips : String
deriving DecidableEq, Repr

/-- Stage 6: final join on the (Zip_Code, Year) pair. -/
def stage6Join (l : List AcsCombinedRow) (r : List UnempRow) :
    List (AcsCombinedRow × Option UnempRow) :=
  leftMerge (fun x => (x.zip, x.year)) (fun y => (y.zip, y.year)) l r

/-- Output size of a left merge: each left row contributes one row per
match, or a single missing-valued row when unmatched. -/
theorem leftMerge_length {L R K : Type} [DecidableEq K]
    (keyL : L → K) (keyR : R → K) (l : List L) (r : List R) :
    (leftMerge keyL keyR l r).length =
      (l.map (fun a => max 1 ((r.filter (fun b => keyR b = keyL a)).length))).sum := by
  induction l with
  | nil => rfl
  | cons a as ih =>
      simp only [leftMerge, List.length_append, List.map_cons, List.sum_cons, ih]
      congr 1
      cases hf : r.filter (fun b => keyR b = keyL a) with
      | nil => simp
      | cons b bs => simp [Nat.max_eq_right, Nat.succ_le_succ]

/-- A right table with pairwise distinct keys matches any key at most
once. -/
theorem filter_length_le_one_of_nodup {R K : Type} [DecidableEq K]
    (keyR : R → K) (r : List R) (hnd : (r.map keyR).Nodup) (k : K) :
    (r.filter (fun b => keyR b = k)).length ≤ 1 := by
  induction r with
  | nil => simp
  | cons b bs ih =>
      rw [List.map_cons, List.nodup_cons] at hnd
      by_cases hb : keyR b = k
      · have hempty : bs.filter (fun c => keyR c = k) = [] := by
          rw [List.filter_eq_nil_iff]
          intro c hc hck
          refine hnd.1 ?_
          rw [List.mem_map]
          exact ⟨c, hc, by rw [decide_eq_true_eq] at hck; rw [hck, hb]⟩
        simp [List.filter_cons, hb, hempty]
      · simpa [List.filter_cons, hb] using ih hnd.2

/-- With unique right keys a left merge preserves the left row count. -/
theorem leftMerge_length_of_nodup {L R K : Type} [DecidableEq K]
    (keyL : L → K) (keyR : R → K) (l : List L) (r : List R)
    (hnd : (r.map keyR).Nodup) :
    (leftMerge keyL keyR l r).length = l.length := by
  rw [leftMerge_length]
  induction l with
  | nil => rfl
  | cons a as ih =>
      simp only [List.map_cons, List.sum_cons, List.length_cons, ih]
      have h1 := filter_length_le_one_of_nodup keyR r hnd (keyL a)
      have : max 1 ((r.filter (fun b => keyR b = keyL a)).length) = 1 := by
        omega
      omega

/-- A left row with no key match still appears, with missing right
fields. -/
theorem leftMerge_unmatched_kept {L R K : Type} [DecidableEq K]
    (keyL : L → K) (keyR : R → K) (l : List L) (r : List R)
    {a : L} (ha : a ∈ l) (hno : r.filter (fun b => keyR b = keyL a) = []) :
    (a, (none : Option R)) ∈ leftMerge keyL keyR l r := by
  induction l with
  | nil => cases ha
  | cons c cs ih =>
      simp only [leftMerge]
      rcases List.mem_cons.mp ha with heq | ha'
      · rw [← heq, hno]
        exact List.mem_append_left _ (List.mem_cons_self _ _)
      · exact List.mem_append_right _ (ih ha')

/-- Left input for the stage-5 cardinality counterexample: one ZIP row. -/
def cxPrimary : List ZipPrimaryRow := [⟨"92101", "06073", 1⟩]

/-- Right input: the county table of stage 5 carries one row per county
and year, so County_FIPS values repeat. -/
def cxBls : List BlsCleanRow :=
  [⟨2023, "06073", "San Diego County", some 4⟩,
   ⟨2024, "06073", "San Diego County", some 5⟩]

/-- C1, counterexample: the stage-5 left join on County_FIPS does not
preserve the left row count: one ZIP row meeting two county-year rows of
its county yields two output rows. -/
theorem claim1_counterexample :
    ¬ ((stage5Join cxPrimary cxBls).length = cxPrimary.length) := by decide

/-- C1, amended. Every left join of stages 3, 5 and 6 keeps every left
row: an unmatched left row survives with missing right fields, never
dropped, and the output length is the sum over left rows of the number of
matches (at least one per left row). The output length equals the left
length whenever the right join keys are pairwise distinct; in stage 5 the
right key County_FIPS repeats across years, so the join fans out
instead. -/
theorem claim1_join_cardinality_amended :
    ((∀ (l : List LiheapAgg) (r : List IncomeRow),
        (stage3Join1 l r).length =
          (l.map (fun a =>
            max 1 ((r.filter (fun b => b.zip = a.zip)).length))).sum) ∧
     (∀ (l : List LiheapAgg) (r : List IncomeRow),
        (r.map IncomeRow.zip).Nodup → (stage3Join1 l r).length = l.length) ∧
     (∀ (l : List LiheapAgg) (r : List IncomeRow) (a : LiheapAgg),
        a ∈ l → r.filter (fun b => b.zip = a.zip) = [] →
          (a, (none : Option IncomeRow)) ∈ stage3Join1 l r)) ∧
    ((∀ (l : List (LiheapAgg × Option IncomeRow)) (r : List PopRow),
        (stage3Join2 l r).length =
          (l.map (fun a =>
            max 1 ((r.filter (fun b => b.zip = a.1.zip)).length))).sum) ∧
     (∀ (l : List (LiheapAgg × Option IncomeRow)) (r : List PopRow),
        (r.map PopRow.zip).Nodup → (stage3Join2 l r).length = l.length) ∧
     (∀ (l : List (LiheapAgg × Option IncomeRow)) (r : List PopRow)
        (a : LiheapAgg × Option IncomeRow),
        a ∈ l → r.filter (fun b => b.zip = a.1.zip) = [] →
          (a, (none : Option PopRow)) ∈ stage3Join2 l r)) ∧
    ((∀ (l : List ZipPrimaryRow) (r : List BlsCleanRow),
        (stage5Join l r).length =
          (l.map (fun a =>
            max 1 ((r.filter (fun b => b.fips = a.fips)).length))).sum) ∧
     (∀ (l : List ZipPrimaryRow) (r : List BlsCleanRow),
        (r.map BlsCleanRow.fips).Nodup → (stage5Join l r).length = l.length) ∧
     (∀ (l : List ZipPrimaryRow) (r : List BlsCleanRow) (a : ZipPrimaryRow),
        a ∈ l → r.filter (fun b => b.fips = a.fips) = [] →
          (a, (none : Option BlsCleanRow)) ∈ stage5Join l r)) ∧
    ((∀ (l : List AcsCombinedRow) (r : List UnempRow),
        (stage6Join l r).length =
          (l.map (fun a =>
            max 1 ((r.filter (fun b =>
              (b.zip, b.year) = (a.zip, a.year))).length))).sum) ∧
     (∀ (l : List AcsCombinedRow) (r : List UnempRow),
        (r.map (fun y => (y.zip, y.year))).Nodup →
          (stage6Join l r).length = l.length) ∧
     (∀ (l : List AcsCombinedRow) (r : List UnempRow) (a : AcsCombinedRow),
        a ∈ l → r.filter (fun b => (b.zip, b.year) = (a.zip, a.year)) = [] →
          (a, (none : Option UnempRow)) ∈ stage6Join l r)) := by
  refine ⟨⟨?_, ?_, ?_⟩, ⟨?_, ?_, ?_⟩, ⟨?_, ?_, ?_⟩, ⟨?_, ?_, ?_⟩⟩
  · intro l r; exact leftMerge_length _ _ l r
  · intro l r h; exact leftMerge_length_of_nodup _ _ l r h
  · intro l r a ha hno; exact leftMerge_unmatched_kept _ _ l r ha hno
  · intro l r; exact leftMerge_length _ _ l r
  · intro l r h; exact leftMerge_length_of_nodup _ _ l r h
  · intro l r a ha hno; exact leftMerge_unmatched_kept _ _ l r ha hno
  · intro l r; exact leftMerge_length _ _ l r
  · intro l r h; exact leftMerge_length_of_nodup _ _ l r h
  · intro l r a ha hno; exact leftMerge_unmatched_kept _ _ l r ha hno
  · intro l r; exact leftMerge_length _ _ l r
  · intro l r h; exact leftMerge_length_of_nodup _ _ l r h
  · intro l r a ha hno; exact leftMerge_unmatched_kept _ _ l r ha hno

/-- Right input with unique county keys for the witness. -/
def cxBlsUnique : List BlsCleanRow :=
  [⟨2023, "06073", "San Diego County", some 4⟩,
   ⟨2023, "06059", "Orange County", some 3⟩]

/-- Concrete instantiation of the amended claim1: with unique right keys
the stage-5 join output has exactly the left length. -/
theorem claim1_join_cardinality_amended_witness :
    (stage5Join cxPrimary cxBlsUnique).length = cxPrimary.length :=
  claim1_join_cardinality_amended.2.2.1.2.1 cxPrimary cxBlsUnique (by decide)

/-! ## Annual unemployment extraction
(04_etl_bls_laus_profile_to_annual.py, main) -/

/-- One monthly-table row of a county sheet: Year and Observation Value
are carried as their to_numeric results (none when unparseable), the
Period cell as text. -/
structure BlsRawRow where
  year : Option ℤ
  period : String
  value : Option ℚ
deriving DecidableEq, Repr

/-- The twelve monthly periods of the isin filter. -/
def monthlyPeriods : List String :=
  ["M01", "M02", "M03", "M04", "M05", "M06",
   "M07", "M08", "M09", "M10", "M11", "M12"]

/-- The regex M followed by two digits, anchored both ends. -/
def matchM2 (p : String) : Bool :=
  match p.data with
  | [a, b, c] => a = 'M' && b.isDigit && c.isDigit
  | _ => false

/-- Period column strip step. -/
def stripPeriods (rows : List BlsRawRow) : List BlsRawRow :=
  rows.map (fun r => { r with period := strip r.period })

/-- The two period filters of the code: the anchored regex, then the isin
list of M01 to M12. -/
def periodFilterPipeline (rows : List BlsRawRow) : List BlsRawRow :=
  ((stripPeriods rows).filter (fun r => matchM2 r.period)).filter
    (fun r => decide (r.period ∈ monthlyPeriods))

/-- dropna on the coerced Year and value columns. -/
def parsedRows (rows : List BlsRawRow) : List BlsRawRow :=
  rows.filter (fun r => r.year.isSome && r.value.isSome)

/-- The distinct years of the retained rows (groupby keys). -/
def blsYears (rows : List BlsRawRow) : List ℤ :=
  (rows.filterMap (fun r => r.year)).dedup

/-- The observation values of one year. -/
def valsForYear (rows : List BlsRawRow) (y : ℤ) : List ℚ :=
  rows.filterMap (fun r => if r.year = some y then r.value else none)

/-- The period labels of one year. -/
def periodsForYear (rows : List BlsRawRow) (y : ℤ) : List String :=
  rows.filterMap (fun r => if r.year = some y then some r.period else none)

def mean (xs : List ℚ) : ℚ := xs.sum / xs.length

/-- One aggregated row: Year, annual mean rate, month count. -/
structure AnnRow where
  year : ℤ
  rate : ℚ
  monthCount : ℕ
deriving DecidableEq, Repr

/-- The per-year aggregation: mean of the monthly values, number of
distinct periods (nunique). -/
def aggregateAnnual (rows : List BlsRawRow) : List AnnRow :=
  let pr := parsedRows (periodFilterPipeline rows)
  (blsYears pr).map (fun y =>
    ⟨y, mean (valsForYear pr y), ((periodsForYear pr y).dedup).length⟩)

/-- The complete-year partition (month_count equal to 12). -/
def annualFull (ann : List AnnRow) : List AnnRow :=
  ann.filter (fun a => decide (a.monthCount = 12))

/-- The partial-year partition (month_count below 12). -/
def annualYtd (ann : List AnnRow) : List AnnRow :=
  ann.filter (fun a => decide (a.monthCount < 12))

/-- C8. The period filter retains exactly the rows whose stripped Period
is one of M01 to M12 (the annual pseudo-period M13 fits the regex but is
excluded by the isin list); each aggregated row carries the mean of the retained
values of its year and the number of distinct retained periods, with
one aggregated row per retained year; and an aggregated row lands in the
complete-year set exactly when its month count is 12 and in the partial
set exactly when it is below 12. -/
theorem claim8_annual_extraction :
    (∀ rows (r : BlsRawRow), r ∈ periodFilterPipeline rows ↔
        (r ∈ stripPeriods rows ∧ r.period ∈ monthlyPeriods)) ∧
    (matchM2 "M13" = true ∧ "M13" ∉ monthlyPeriods) ∧
    (∀ rows (a : AnnRow), a ∈ aggregateAnnual rows →
        a.rate = mean (valsForYear (parsedRows (periodFilterPipeline rows)) a.year) ∧
        a.monthCount =
          ((periodsForYear (parsedRows (periodFilterPipeline rows)) a.year).dedup).length) ∧
    (∀ rows y, y ∈ blsYears (parsedRows (periodFilterPipeline rows)) →
        ∃ a ∈ aggregateAnnual rows, a.year = y) ∧
    (∀ rows (a : AnnRow), a ∈ aggregateAnnual rows →
        ((a ∈ annualFull (aggregateAnnual rows) ↔ a.monthCount = 12) ∧
         (a ∈ annualYtd (aggregateAnnual rows) ↔ a.monthCount < 12))) := by
  refine ⟨?_, ⟨by decide, by decide⟩, ?_, ?_, ?_⟩
  · intro rows r
    simp only [periodFilterPipeline, List.mem_filter, decide_eq_true_eq]
    constructor
    · intro ⟨⟨hmem, _⟩, hin⟩
      exact ⟨hmem, hin⟩
    · intro ⟨hmem, hin⟩
      refine ⟨⟨hmem, ?_⟩, hin⟩
      have hall : ∀ p ∈ monthlyPeriods, matchM2 p = true := by decide
      exact hall _ hin
  · intro rows a ha
    simp only [aggregateAnnual, List.mem_map] at ha
    obtain ⟨y, _, heq⟩ := ha
    rw [← heq]
    exact ⟨rfl, rfl⟩
  · intro rows y hy
    simp only [aggregateAnnual, List.mem_map]
    exact ⟨⟨y, mean (valsForYear (parsedRows (periodFilterPipeline rows)) y),
      ((periodsForYear (parsedRows (periodFilterPipeline rows)) y).dedup).length⟩,
      ⟨y, hy, rfl⟩, rfl⟩
  · intro rows a ha
    constructor
    · simp only [annualFull, List.mem_filter, decide_eq_true_eq]
      exact ⟨fun h => h.2, fun h => ⟨ha, h⟩⟩
    · simp only [annualYtd, List.mem_filter, decide_eq_true_eq]
      exact ⟨fun h => h.2, fun h => ⟨ha, h⟩⟩

/-- Concrete instantiation of claim8: a row whose period is the annual
pseudo-period M13 is not retained by the period filter. -/
theorem claim8_annual_extraction_witness :
    (⟨some 2023, "M13", some 9⟩ : BlsRawRow) ∉
      periodFilterPipeline [⟨some 2023, "M13", some 9⟩] := by
  intro h
  exact absurd ((claim8_annual_extraction.1 _ _).mp h).2 (by decide)

/-! ## Column normalization and file rejection
(01_combine_liheap_data.py, COLUMN_MAPPING and _normalize_single_file) -/

/-- The raw-to-canonical header mapping, transcribed entry by entry. -/
def COLUMN_MAPPING : List (String × String) :=
  [("CV_EnergyAssistance[City(Service Address)]", "City"),
   ("Service City", "City"),
   ("City", "City"),
   ("CV_EnergyAssistance[Post Code (Service Address)]", "Zip_Code"),
   ("CV_EnergyAssistance[Zipcode (Business Partner Address)]", "Zip_Code"),
   ("Zipcode (Business Partner Address)", "Zip_Code"),
   ("Zip Code", "Zip_Code"),
   ("ZIP", "Zip_Code"),
   ("Zip_Code", "Zip_Code"),
   ("CV_EnergyAssistance[created On (Pledge Details)]", "Created_On"),
   ("CV_EnergyAssistance[Created On (Pledge Details)]", "Created_On"),
   ("CV_EnergyAssistance[Created on (MM/DD/YYYY)]", "Created_On"),
   ("CV_EnergyAssistance[Created On (PL)]", "Created_On"),
   ("Created_On", "Created_On"),
   ("Created On", "Created_On"),
   ("[Pledge_Amount]", "Pledge_Amount"),
   ("Pledge Amount", "Pledge_Amount"),
   ("Pledge_Amount", "Pledge_Amount"),
   ("CV_EnergyAssistance[Pledge Amount]", "Pledge_Amount")]

def REQUIRED_STRICT : List String := ["Zip_Code", "Created_On", "Pledge_Amount"]

/-- One pass of the whitespace collapse: any run of whitespace becomes a
single space; the flag records whether the previous character was
whitespace. -/
def collapseAux : Bool → List Char → List Char
  | _, [] => []
  | prevWs, c :: cs =>
      if c.isWhitespace then
        if prevWs then collapseAux true cs
        else ' ' :: collapseAux true cs
      else c :: collapseAux false cs

/-- Header text normalization: strip, then collapse whitespace runs. -/
def normHeader (s : String) : String :=
  String.mk (collapseAux false (strip s).data)

/-- The rename: a recognized spelling becomes its canonical name, an
unrecognized header passes through unchanged. -/
def applyMapping (c : String) : String :=
  match COLUMN_MAPPING.lookup c with
  | some v => v
  | none => c

/-- The column list after whitespace normalization and renaming. -/
def mappedCols (cols : List String) : List String :=
  cols.map (fun c => applyMapping (normHeader c))

/-- A raw source file: its name, its header row, and its data rows, each
row a lookup from raw header text to the cell. -/
structure RawFile where
  name : String
  cols : List String
  rows : List (String → Option String)

/-- One normalized output row of a kept file. -/
structure NormRow where
  city : Option String
  zipCell : Option String
  createdCell : Option String
  amountCell : Option String
  src : String
deriving DecidableEq, Repr

/-- The first raw header that maps to the requested canonical name. -/
def rawColFor (cols : List String) (canon : String) : Option String :=
  cols.find? (fun c => applyMapping (normHeader c) == canon)

def getCell (f : RawFile) (ρ : String → Option String) (canon : String) :
    Option String :=
  match rawColFor f.cols canon with
  | none => none
  | some rc => ρ rc

/-- The per-file normalization: reject the file, recording its name and
the missing required columns, when any of the three required canonical
columns is absent after renaming; otherwise keep it, synthesizing an
all-missing City column when City is absent. -/
def normalizeSingleFile (f : RawFile) :
    Except (String × List String) (List NormRow) :=
  let cols := mappedCols f.cols
  let missing := REQUIRED_STRICT.filter (fun c => decide (c ∉ cols))
  if missing ≠ [] then .error (f.name, missing)
  else .ok (f.rows.map (fun ρ =>
    { city := if "City" ∈ cols then getCell f ρ "City" else none
      zipCell := getCell f ρ "Zip_Code"
      createdCell := getCell f ρ "Created_On"
      amountCell := getCell f ρ "Pledge_Amount"
      src := f.name }))

/-- C9. A file is rejected exactly when one of Zip_Code, Created_On,
Pledge_Amount is absent after header mapping, and the rejection record
carries the file name with the list of missing required columns; a kept
file keeps all its rows, and when only City is absent the kept rows carry
an all-missing City column. -/
theorem claim9_file_rejection :
    (∀ f : RawFile, (∃ e, normalizeSingleFile f = .error e) ↔
        ∃ c ∈ REQUIRED_STRICT, c ∉ mappedCols f.cols) ∧
    (∀ (f : RawFile) e, normalizeSingleFile f = .error e →
        e = (f.name,
          REQUIRED_STRICT.filter (fun c => decide (c ∉ mappedCols f.cols)))) ∧
    (∀ (f : RawFile) out, normalizeSingleFile f = .ok out →
        out.length = f.rows.length) ∧
    (∀ (f : RawFile) out, normalizeSingleFile f = .ok out →
        "City" ∉ mappedCols f.cols → ∀ ρ ∈ out, ρ.city = none) := by
  refine ⟨?_, ?_, ?_, ?_⟩
  · intro f
    rw [normalizeSingleFile]
    by_cases h : REQUIRED_STRICT.filter
        (fun c => decide (c ∉ mappedCols f.cols)) ≠ []
    · simp only [if_pos h]
      constructor
      · intro _
        rcases List.exists_mem_of_ne_nil _ h with ⟨c, hc⟩
        rcases List.mem_filter.mp hc with ⟨hcr, hcd⟩
        exact ⟨c, hcr, by simpa using hcd⟩
      · intro _
        exact ⟨_, rfl⟩
    · simp only [if_neg h]
      constructor
      · intro ⟨e, he⟩
        cases he
      · intro ⟨c, hcr, hcm⟩
        rw [not_not] at h
        have : c ∈ REQUIRED_STRICT.filter
            (fun c => decide (c ∉ mappedCols f.cols)) :=
          List.mem_filter.mpr ⟨hcr, by simpa using hcm⟩
        rw [h] at this
        cases this
  · intro f e he
    rw [normalizeSingleFile] at he
    by_cases h : REQUIRED_STRICT.filter
        (fun c => decide (c ∉ mappedCols f.cols)) ≠ []
    · rw [if_pos h] at he
      cases he
      rfl
    · rw [if_neg h] at he
      cases he
  · intro f out hout
    rw [normalizeSingleFile] at hout
    by_cases h : REQUIRED_STRICT.filter
        (fun c => decide (c ∉ mappedCols f.cols)) ≠ []
    · rw [if_pos h] at hout
      cases hout
    · rw [if_neg h] at hout
      cases hout
      simp
  · intro f out hout hcity ρ hρ
    rw [normalizeSingleFile] at hout
    by_cases h : REQUIRED_STRICT.filter
        (fun c => decide (c ∉ mappedCols f.cols)) ≠ []
    · rw [if_pos h] at hout
      cases hout
    · rw [if_neg h] at hout
      cases hout
      rcases List.mem_map.mp hρ with ⟨r, _, heq⟩
      rw [← heq]
      simp only [if_neg hcity]

/-- A file whose headers map to City, Zip_Code and Created_On but not
Pledge_Amount. -/
def rejectedFile : RawFile :=
  ⟨"f1.xlsx", ["Service City", "Zip Code", "Created On"], []⟩

/-- Concrete instantiation of claim9: the rejection record for a file
missing Pledge_Amount names exactly that column. -/
theorem claim9_file_rejection_witness :
    (("f1.xlsx", ["Pledge_Amount"]) : String × List String) =
      (rejectedFile.name, REQUIRED_STRICT.filter
        (fun c => decide (c ∉ mappedCols rejectedFile.cols))) :=
  claim9_file_rejection.2.1 rejectedFile ("f1.xlsx", ["Pledge_Amount"]) (by rfl)

/-! ## Date-range filter (01_combine_liheap_data.py, filter_by_date_range)

YearMo strings compare as Python strings, code point by code point, which
the List Char lexicographic order mirrors exactly. -/

/-- filter_by_date_range: both bounds unset is the identity; otherwise the
mask keeps rows between the set bounds inclusively. -/
def filter_by_date_range (startB endB : Option String)
    (df : List CleanRecord) : List CleanRecord :=
  match startB, endB with
  | none, none => df
  | _, _ =>
      df.filter (fun r =>
        (match startB with
         | none => true
         | some s => decide (s.data ≤ r.yearMo.data)) &&
        (match endB with
         | none => true
         | some e => decide (r.yearMo.data ≤ e.data)))

def digitChars : List Char := ['0', '1', '2', '3', '4', '5', '6', '7', '8', '9']

theorem digitChar_mem (k : ℕ) (h : k < 10) : Nat.digitChar k ∈ digitChars := by
  interval_cases k <;> decide

theorem digit_lt_N (c : Char) (h : c ∈ digitChars) : c < 'N' := by
  fin_cases h <;> decide

/-- Any string starting with a decimal digit is lexicographically below
the text NaT. -/
theorem digit_head_lt_NaT (c : Char) (cs : List Char) (h : c ∈ digitChars) :
    (c :: cs) < "NaT".data :=
  List.Lex.rel (digit_lt_N c h)

/-- C10. A record whose date failed to parse gets the literal YearMo text
NaT; NaT is lexicographically above every digit-led year-month string, in
particular above every rendered YYYY-MM period; hence the range filter
drops every such record once an end bound (a digit-led bound string) is
set, keeps them all when only a digit-led start bound is set, and keeps
everything when no bound is set. -/
theorem claim10_nat_date_filter :
    (∀ df r, r ∈ clean_core_columns df → r.created = none →
        r.yearMo = "NaT") ∧
    (∀ y m : ℕ, (yearMoStr y m).data < "NaT".data) ∧
    (∀ (df : List CleanRecord) (startB : Option String) (e : String) r,
        (∃ c cs, e.data = c :: cs ∧ c ∈ digitChars) →
        r.yearMo = "NaT" → r ∉ filter_by_date_range startB (some e) df) ∧
    (∀ (df : List CleanRecord) (s : String) r,
        (∃ c cs, s.data = c :: cs ∧ c ∈ digitChars) →
        r ∈ df → r.yearMo = "NaT" →
        r ∈ filter_by_date_range (some s) none df) ∧
    (∀ df : List CleanRecord, filter_by_date_range none none df = df) := by
  refine ⟨?_, ?_, ?_, ?_, ?_⟩
  · intro df r hr hnone
    simp only [clean_core_columns, List.mem_map] at hr
    obtain ⟨raw, _, heq⟩ := hr
    rw [← heq] at hnone ⊢
    simp only at hnone ⊢
    rw [hnone]
    rfl
  · intro y m
    exact digit_head_lt_NaT _ _ (digitChar_mem _ (Nat.mod_lt _ (by norm_num)))
  · intro df startB e r ⟨c, cs, hce, hc⟩ hnat hmem
    rcases startB with _ | s
    · simp only [filter_by_date_range, List.mem_filter, Bool.and_eq_true,
        decide_eq_true_eq] at hmem
      have hle := hmem.2.2
      rw [hnat, hce] at hle
      exact absurd hle (not_le_of_lt (digit_head_lt_NaT c cs hc))
    · simp only [filter_by_date_range, List.mem_filter, Bool.and_eq_true,
        decide_eq_true_eq] at hmem
      have hle := hmem.2.2
      rw [hnat, hce] at hle
      exact absurd hle (not_le_of_lt (digit_head_lt_NaT c cs hc))
  · intro df s r ⟨c, cs, hcs, hc⟩ hmem hnat
    simp only [filter_by_date_range, List.mem_filter, Bool.and_eq_true,
      decide_eq_true_eq]
    refine ⟨hmem, ?_, trivial⟩
    rw [hnat, hcs]
    exact le_of_lt (digit_head_lt_NaT c cs hc)
  · intro df
    rfl

/-- Concrete instantiation of claim10: a NaT record passes the filter when
only the start bound 2023-01 is set. -/
theorem claim10_nat_date_filter_witness :
    (⟨none, some "92101", none, "NaT", some 5, "f.xlsx"⟩ : CleanRecord) ∈
      filter_by_date_range (some "2023-01") none
        [⟨none, some "92101", none, "NaT", some 5, "f.xlsx"⟩] :=
  claim10_nat_date_filter.2.2.2.1 _ "2023-01" _
    ⟨'2', "023-01".data, rfl, by decide⟩ (List.mem_cons_self _ _) rfl

/-! ## City backfill and final output
(01_combine_liheap_data.py, fill_missing_cities and save_final_dataset) -/

/-- The internal-map lookup used for the first fill: map on the Zip_Code
column, missing keys and missing zips give a missing fill. -/
def lookupInternal (df : List CleanRecord) (z : Option String) :
    Option String :=
  match z with
  | none => none
  | some zs => build_zip_city_from_internal df zs

/-- The GeoNames lookup of the second fill: a missing zip gives none, else
the zip text zfilled to 5 is looked up in the reference mapping. -/
def lookup_city (geo : List (String × String)) (z : Option String) :
    Option String :=
  match z with
  | none => none
  | some zs => geo.lookup (zfill 5 zs)

/-- fill_missing_cities: fill missing City from the internal majority map,
then, when the reference mapping is nonempty, fill the still-missing City
from it, and finally normalize every City to stripped uppercase text (a
still-missing City renders as the text nan and uppercases to NAN). -/
def fill_missing_cities (geo : List (String × String))
    (df : List CleanRecord) : List CleanRecord :=
  let df1 := df.map (fun r =>
    if missingCity r.city then { r with city := lookupInternal df r.zip }
    else r)
  let df2 :=
    if geo = [] then df1
    else df1.map (fun r =>
      if missingCity r.city then { r with city := lookup_city geo r.zip }
      else r)
  df2.map (fun r => { r with city := some (upper (strip (astypeStr r.city))) })

/-- One row of the stage-1 final output file: City, Zip_Code as text,
YearMo, Pledge_Amount. -/
structure FinalRow where
  city : String
  zip : String
  yearMo : String
  amount : Option ℚ
deriving DecidableEq, Repr

/-- save_final_dataset: select the four final columns, Zip_Code cast to
text (a missing zip renders as the text nan). -/
def save_final_dataset (df : List CleanRecord) : List FinalRow :=
  df.map (fun r => ⟨astypeStr r.city, astypeStr r.zip, r.yearMo, r.amount⟩)

/-- The stage-1 pipeline from the combined raw table to the final file,
with the run parameters of main: clean, deduplicate, fill cities, filter
by date range, save. -/
def runStage1 (geo : List (String × String)) (startB endB : Option String)
    (df_all : List RawRecord) : List FinalRow :=
  save_final_dataset (filter_by_date_range startB endB
    (fill_missing_cities geo (deduplicate (clean_core_columns df_all))))

/-- A raw row whose Zip_Code is present but cannot be cleaned to 5 digits. -/
def badZipRow : RawRecord :=
  ⟨some "San Diego", some "CA 921", some (2024, 5), some 10, "f2.xlsx"⟩

/-- C2, divergence: stage 1 drops only rows whose RAW Zip_Code is missing,
before cleaning; a row whose Zip_Code is present but fails the 5-digit
extraction is kept with a missing ZIP, which the final text cast renders
as the 3-character non-digit text nan. The documented contract (drop rows
with missing or invalid Zip_Code; every emitted ZipCode is 5 digits) is
violated at this input. -/
theorem claim2_zip_invariant_bug :
    runStage1 [] (some "2023-01") (some "2025-06") [badZipRow] =
      [⟨"SAN DIEGO", "nan", "2024-05", some 10⟩] ∧
    ¬ (("nan" : String).data.length = 5 ∧
        ("nan" : String).data.all Char.isDigit = true) := by
  constructor
  · rfl
  · decide
